import Mathlib

/-!
Verification of the discrete-choice regression components described by the
repository's notebook (`Lecture21_discrete.ipynb`) and its specification:
link functions (normal / logistic), the OLS linear-probability baseline,
the maximum-likelihood fitting loop, the design-matrix builder and the
marginal-effects calculator.

The notebook delegates estimation to an external statistics library, so the
estimator, design-matrix builder and marginal-effects components are
modelled from the spec; the closed-form link expressions are embedded
directly from the notebook's own code cells.
-/

namespace Econometrics

open scoped Matrix

/-- Logistic link CDF, embedded from the notebook cell `Y = 1/(1+np.exp(-X))`. -/
noncomputable def logisticCDF (z : ℝ) : ℝ := 1 / (1 + Real.exp (-z))

/-- Logit predicted probability, embedded from the notebook cell
`pred_logit = np.exp(res_logit.fittedvalues) /( 1+np.exp(res_logit.fittedvalues) )`. -/
noncomputable def predLogit (z : ℝ) : ℝ := Real.exp z / (1 + Real.exp z)

/-- Standard normal PDF, as in the spec: PDF(z) = (1/sqrt(2 pi)) exp(-z^2/2);
the notebook calls `norm.pdf(...,0,1)`. -/
noncomputable def normalPDF (z : ℝ) : ℝ :=
  (1 / Real.sqrt (2 * Real.pi)) * Real.exp (-z ^ 2 / 2)

/-- Error function, as in the spec's normal-link formula:
erf(x) = (2/sqrt pi) * integral of exp(-t^2) for t from 0 to x. -/
noncomputable def erf (x : ℝ) : ℝ :=
  (2 / Real.sqrt Real.pi) * ∫ t in (0:ℝ)..x, Real.exp (-t ^ 2)

/-- Standard normal CDF, as in the spec: CDF(z) = (1/2)(1+erf(z/sqrt 2));
the notebook calls `norm.cdf(...,0,1)`. -/
noncomputable def normalCDF (z : ℝ) : ℝ :=
  (1 / 2) * (1 + erf (z / Real.sqrt 2))

/-- Per-observation marginal effect of the probit model, embedded from the
notebook cell `y = norm.pdf(res_probit.fittedvalues,0,1)*res_probit.params.spread`:
the link PDF at the linear index times the coefficient. -/
noncomputable def obsMargeff (z b : ℝ) : ℝ := normalPDF z * b

lemma one_add_exp_pos (z : ℝ) : 0 < 1 + Real.exp z :=
  lt_trans one_pos (by linarith [Real.exp_pos z])

lemma one_add_exp_ne_zero (z : ℝ) : 1 + Real.exp z ≠ 0 :=
  ne_of_gt (one_add_exp_pos z)

lemma normalPDF_pos (z : ℝ) : 0 < normalPDF z := by
  unfold normalPDF
  have h2π : 0 < Real.sqrt (2 * Real.pi) :=
    Real.sqrt_pos.mpr (by positivity)
  positivity

/-- C4: for every real z, the logistic link CDF satisfies
CDF(z) + CDF(-z) = 1. -/
theorem logisticCDF_symm (z : ℝ) : logisticCDF z + logisticCDF (-z) = 1 := by
  unfold logisticCDF
  rw [neg_neg, Real.exp_neg]
  have he : Real.exp z ≠ 0 := Real.exp_ne_zero z
  have h1 : 1 + (Real.exp z)⁻¹ ≠ 0 := by
    have : 0 < 1 + (Real.exp z)⁻¹ := by positivity
    exact ne_of_gt this
  have h2 : 1 + Real.exp z ≠ 0 := one_add_exp_ne_zero z
  field_simp
  ring

/-- C10: for every real linear index z, the logit predicted probability
exp(z)/(1+exp(z)) lies strictly between 0 and 1. -/
theorem predLogit_mem_unit_interval (z : ℝ) :
    0 < predLogit z ∧ predLogit z < 1 := by
  unfold predLogit
  constructor
  · exact div_pos (Real.exp_pos z) (one_add_exp_pos z)
  · rw [div_lt_one (one_add_exp_pos z)]
    linarith

/-- C8: the normal link CDF satisfies CDF(0) = 0.5 exactly. -/
theorem normalCDF_zero : normalCDF 0 = 1 / 2 := by
  unfold normalCDF erf
  rw [zero_div, intervalIntegral.integral_same]
  ring

/-- C5: the sign of the computed per-observation marginal effect
equals the sign of the coefficient: the link PDF factor is positive,
so it never flips the sign. -/
theorem obsMargeff_sign (z b : ℝ) :
    (0 < b → 0 < obsMargeff z b) ∧ (b < 0 → obsMargeff z b < 0) ∧
    (b = 0 → obsMargeff z b = 0) := by
  refine ⟨fun hb => ?_, fun hb => ?_, fun hb => ?_⟩
  · exact mul_pos (normalPDF_pos z) hb
  · exact mul_neg_of_pos_of_neg (normalPDF_pos z) hb
  · simp [obsMargeff, hb]

/-- Witness for C5 at z = 0, b = 1. -/
theorem obsMargeff_sign_witness : 0 < obsMargeff 0 1 :=
  (obsMargeff_sign 0 1).1 one_pos

/-! ## Linear probability (OLS) baseline -/

/-- Modelled from the spec: the closed-form least-squares solver is delegated
to the external statistics library (`smf.ols(...).fit()`) and absent from the
source, so it is modelled from the spec formula beta = (X^T X)^(-1) X^T y,
written through the adjugate so that it is computable over the rationals. -/
def ols {n p : ℕ} (X : Matrix (Fin n) (Fin p) ℚ) (y : Fin n → ℚ) : Fin p → ℚ :=
  ((Xᵀ * X).det)⁻¹ • ((Xᵀ * X).adjugate *ᵥ (Xᵀ *ᵥ y))

/-- OLS fitted values are the raw linear values X beta, with no clipping,
as in the notebook's use of `res_ols.fittedvalues`. -/
def olsPredict {n p : ℕ} (X : Matrix (Fin n) (Fin p) ℚ) (β : Fin p → ℚ) :
    Fin n → ℚ :=
  X *ᵥ β

/-- C2: whenever the Gram matrix X^T X is invertible, the OLS coefficient
vector satisfies the normal equations X^T X beta = X^T y. -/
theorem ols_normal_equations {n p : ℕ} (X : Matrix (Fin n) (Fin p) ℚ)
    (y : Fin n → ℚ) (h : (Xᵀ * X).det ≠ 0) :
    (Xᵀ * X) *ᵥ ols X y = Xᵀ *ᵥ y := by
  unfold ols
  set A : Matrix (Fin p) (Fin p) ℚ := Xᵀ * X with hA
  set v : Fin p → ℚ := Xᵀ *ᵥ y with hv
  rw [Matrix.mulVec_smul, Matrix.mulVec_mulVec, Matrix.mul_adjugate,
    Matrix.smul_mulVec_assoc, Matrix.one_mulVec, smul_smul,
    inv_mul_cancel₀ h, one_smul]

/-- Concrete design matrix: intercept column plus one regressor with
values 0, 1, 2. -/
def Xc : Matrix (Fin 3) (Fin 2) ℚ := !![1, 0; 1, 1; 1, 2]

/-- Concrete binary outcome vector for the three observations. -/
def yc : Fin 3 → ℚ := ![0, 1, 1]

lemma Xc_gram : Xcᵀ * Xc = !![3, 3; 3, 5] := by
  ext i j
  fin_cases i <;> fin_cases j <;>
    simp [Xc, Matrix.mul_apply, Matrix.transpose_apply, Matrix.vecHead,
      Matrix.vecTail, Fin.sum_univ_three] <;> norm_num

lemma Xc_gram_det : (Xcᵀ * Xc).det = 6 := by
  rw [Xc_gram]
  norm_num [Matrix.det_fin_two]

lemma ols_Xc_yc : ols Xc yc = ![1 / 6, 1 / 2] := by
  unfold ols
  rw [Xc_gram]
  ext i
  fin_cases i <;>
    simp [Xc, yc, Matrix.adjugate_fin_two, Matrix.mulVec, Matrix.dotProduct,
      Matrix.det_fin_two, Matrix.transpose_apply, Matrix.vecHead,
      Matrix.vecTail, Fin.sum_univ_two, Fin.sum_univ_three] <;>
    norm_num

/-- Witness for C2: three observations with regressor values 0, 1, 2 and an
intercept column; the Gram matrix has determinant 6. -/
theorem ols_normal_equations_witness :
    (Xcᵀ * Xc).det ≠ 0 ∧ (Xcᵀ * Xc) *ᵥ ols Xc yc = Xcᵀ *ᵥ yc :=
  ⟨by rw [Xc_gram_det]; norm_num,
    ols_normal_equations Xc yc (by rw [Xc_gram_det]; norm_num)⟩

/-- C6: OLS (linear probability) predictions are the raw values X beta and
are not clipped to the unit interval: on the data y = (0,1,1), x = (0,1,2)
the fitted value at the third observation is 7/6 > 1 and is returned as-is. -/
theorem olsPredict_unclipped :
    olsPredict Xc (ols Xc yc) 2 = 7 / 6 ∧ (1 : ℚ) < 7 / 6 := by
  refine ⟨?_, by norm_num⟩
  rw [ols_Xc_yc]
  simp [olsPredict, Xc, Matrix.mulVec, Matrix.dotProduct, Fin.sum_univ_two]
  norm_num

/-! ## Maximum-likelihood fitting loop -/

/-- Fatal estimation errors, as in the spec's error taxonomy. -/
inductive FitError where
  | singularHessian
  deriving DecidableEq

/-- Fitted model result: coefficient vector, iteration count and
convergence flag, as in the spec's Fitted Model Result record. -/
structure FitResult (α : Type) where
  coef : α
  iterations : ℕ
  converged : Bool
  deriving DecidableEq

/-- Modelled from the spec: the Newton-Raphson fitting loop of
`smf.probit(...).fit()` / `smf.logit(...).fit()` is inside the external
statistics library and absent from the source.  One update step is an
abstract `step` (returning `none` when the Hessian is singular), `ll` is
the log-likelihood; the loop stops when the change in `ll` falls below
`tol`, and exhausting the fuel returns the current iterate with
`converged := false`. -/
def fitAux {α : Type} (step : α → Option α) (ll : α → ℚ) (tol : ℚ) :
    ℕ → α → ℕ → Except FitError (FitResult α)
  | 0, β, iter => Except.ok ⟨β, iter, false⟩
  | fuel + 1, β, iter =>
    match step β with
    | none => Except.error FitError.singularHessian
    | some β2 =>
      if |ll β2 - ll β| < tol then Except.ok ⟨β2, iter + 1, true⟩
      else fitAux step ll tol fuel β2 (iter + 1)

/-- Modelled from the spec: run the fitting loop from the starting value
`β0` for at most `maxiter` iterations. -/
def mleFit {α : Type} (step : α → Option α) (ll : α → ℚ) (tol : ℚ)
    (maxiter : ℕ) (β0 : α) : Except FitError (FitResult α) :=
  fitAux step ll tol maxiter β0 0

lemma fitAux_ok {α : Type} (step : α → Option α) (ll : α → ℚ) (tol : ℚ)
    (h : ∀ β, step β ≠ none) :
    ∀ (fuel : ℕ) (β : α) (iter : ℕ),
      ∃ r : FitResult α, fitAux step ll tol fuel β iter = Except.ok r ∧
        iter ≤ r.iterations ∧ r.iterations ≤ iter + fuel ∧
        (r.converged = false → r.iterations = iter + fuel) := by
  intro fuel
  induction fuel with
  | zero =>
    intro β iter
    refine ⟨⟨β, iter, false⟩, rfl, ?_, ?_, ?_⟩
    · show iter ≤ iter
      omega
    · show iter ≤ iter + 0
      omega
    · intro _
      show iter = iter + 0
      omega
  | succ n ih =>
    intro β iter
    cases hs : step β with
    | none => exact absurd hs (h β)
    | some β2 =>
      by_cases hc : |ll β2 - ll β| < tol
      · refine ⟨⟨β2, iter + 1, true⟩, ?_, ?_, ?_, ?_⟩
        · simp [fitAux, hs, hc]
        · show iter ≤ iter + 1
          omega
        · show iter + 1 ≤ iter + (n + 1)
          omega
        · intro hcv
          exact absurd hcv (by simp)
      · obtain ⟨r, hr, h1, h2, h3⟩ := ih β2 (iter + 1)
        refine ⟨r, ?_, by omega, by omega, fun hcv => by have := h3 hcv; omega⟩
        simp [fitAux, hs, hc, hr]

/-- C1: whenever no iteration hits a singular Hessian, the fitting loop
terminates with a (non-fatal) result: at most `maxiter` iterations are run,
and if the tolerance was never met the loop returns the current coefficient
estimate with `converged = false` after exactly `maxiter` iterations. -/
theorem mleFit_terminates {α : Type} (step : α → Option α) (ll : α → ℚ)
    (tol : ℚ) (maxiter : ℕ) (β0 : α) (h : ∀ β, step β ≠ none) :
    ∃ r : FitResult α, mleFit step ll tol maxiter β0 = Except.ok r ∧
      r.iterations ≤ maxiter ∧
      (r.converged = false → r.iterations = maxiter) := by
  obtain ⟨r, hr, _, h2, h3⟩ := fitAux_ok step ll tol h maxiter β0 0
  exact ⟨r, hr, by omega, fun hcv => by have := h3 hcv; omega⟩

/-- Witness for C1: a concrete halving step on rationals never reports a
singular Hessian, so the fit returns a result within the iteration cap. -/
theorem mleFit_terminates_witness :
    (∀ β : ℚ, (fun b : ℚ => some (b / 2)) β ≠ none) ∧
    ∃ r : FitResult ℚ,
      mleFit (fun b : ℚ => some (b / 2)) id 1 5 1 = Except.ok r ∧
      r.iterations ≤ 5 ∧ (r.converged = false → r.iterations = 5) :=
  ⟨fun β => by simp,
    mleFit_terminates (fun b : ℚ => some (b / 2)) id 1 5 1 (fun β => by simp)⟩

/-! ## Design matrix builder -/

/-- Fatal input error of the design matrix builder, as in the spec. -/
inductive BuildError where
  | dimensionError
  deriving DecidableEq

/-- Modelled from the spec: the builder behind the formula API
(`favwin ~ spread`, constant added automatically) is inside the external
statistics library and absent from the source.  Each record is an outcome
paired with its regressor vector; a column of ones is prepended, column
order is preserved, and a length mismatch between records fails with a
dimension error. -/
def buildDesign (obs : List (ℚ × List ℚ)) :
    Except BuildError (List ℚ × List (List ℚ)) :=
  match obs with
  | [] => Except.ok ([], [])
  | r :: rest =>
    if (r :: rest).all (fun s => s.2.length == r.2.length) then
      Except.ok ((r :: rest).map Prod.fst, (r :: rest).map fun s => 1 :: s.2)
    else Except.error BuildError.dimensionError

/-- C9: when every record carries k regressors, the builder succeeds and the
design matrix has one row per record, every row has length k+1, every row
starts with the constant 1, and each row's tail is the record's regressor
vector in its original order. -/
theorem buildDesign_shape (obs : List (ℚ × List ℚ)) (k : ℕ)
    (h : ∀ r ∈ obs, r.2.length = k) :
    ∃ y X, buildDesign obs = Except.ok (y, X) ∧
      y = obs.map Prod.fst ∧
      X.length = obs.length ∧
      (∀ row ∈ X, row.length = k + 1) ∧
      X = obs.map fun s => (1 : ℚ) :: s.2 := by
  match obs with
  | [] =>
    exact ⟨[], [], rfl, rfl, rfl, fun row hrow => absurd hrow (List.not_mem_nil row), rfl⟩
  | r :: rest =>
    have hall : (r :: rest).all (fun s => s.2.length == r.2.length) = true := by
      rw [List.all_eq_true]
      intro s hs
      have h1 := h s hs
      have h2 := h r (List.mem_cons_self r rest)
      simp [h1, h2]
    refine ⟨(r :: rest).map Prod.fst, (r :: rest).map fun s => (1 : ℚ) :: s.2,
      ?_, rfl, by simp, ?_, rfl⟩
    · simp [buildDesign, hall]
    · intro row hrow
      obtain ⟨s, hs, hrow⟩ := List.mem_map.mp hrow
      rw [← hrow]
      simp [h s hs]

/-- Witness for C9: two records, each with one regressor. -/
theorem buildDesign_shape_witness :
    (∀ r ∈ [((1 : ℚ), [(2 : ℚ)]), (0, [3])], r.2.length = 1) ∧
    ∃ y X, buildDesign [((1 : ℚ), [(2 : ℚ)]), (0, [3])] = Except.ok (y, X) ∧
      y = [((1 : ℚ), [(2 : ℚ)]), (0, [3])].map Prod.fst ∧
      X.length = [((1 : ℚ), [(2 : ℚ)]), (0, [3])].length ∧
      (∀ row ∈ X, row.length = 1 + 1) ∧
      X = [((1 : ℚ), [(2 : ℚ)]), (0, [3])].map fun s => (1 : ℚ) :: s.2 :=
  ⟨by decide, buildDesign_shape [((1 : ℚ), [(2 : ℚ)]), (0, [3])] 1 (by decide)⟩

/-! ## Marginal effects calculator -/

/-- Evaluation mode for marginal effects, as in the spec's configuration
enumeration. -/
inductive MEMode where
  | mean
  | average
  deriving DecidableEq

/-- Linear index of each observation: the design matrix applied to the
coefficient vector (the model's fitted values). -/
noncomputable def linIndex {n p : ℕ} (X : Matrix (Fin n) (Fin p) ℝ)
    (β : Fin p → ℝ) : Fin n → ℝ :=
  X *ᵥ β

/-- Column-wise mean of the design matrix (the mean design row). -/
noncomputable def meanRow {n p : ℕ} (X : Matrix (Fin n) (Fin p) ℝ) :
    Fin p → ℝ :=
  fun j => (∑ i, X i j) / n

/-- Modelled from the spec: `get_margeff` lives in the external statistics
library and is absent from the source.  The per-column marginal effect,
intercept column included: in `mean` mode the link PDF at the linear index
of the mean design row times the coefficient; in `average` mode the
per-observation derivative averaged over observations. -/
noncomputable def margeffAll {n p : ℕ} (mode : MEMode) (pdf : ℝ → ℝ)
    (X : Matrix (Fin n) (Fin (p + 1)) ℝ) (β : Fin (p + 1) → ℝ) :
    Fin (p + 1) → ℝ :=
  match mode with
  | MEMode.mean => fun j => pdf (meanRow X ⬝ᵥ β) * β j
  | MEMode.average => fun j => (∑ i, pdf (linIndex X β i) * β j) / n

/-- Modelled from the spec: the marginal-effects output drops the intercept
column (column 0) and keeps one entry per regressor. -/
noncomputable def margeff {n p : ℕ} (mode : MEMode) (pdf : ℝ → ℝ)
    (X : Matrix (Fin n) (Fin (p + 1)) ℝ) (β : Fin (p + 1) → ℝ) :
    Fin p → ℝ :=
  fun j => margeffAll mode pdf X β j.succ

/-- The spec's closed formula: ME_j = f(xbar beta) · beta_j, where the
scalar factor is the link PDF at the mean design row's linear index in
`mean` mode, and the averaged per-observation link PDF in `average` mode;
the intercept is excluded, so entry j corresponds to design column j+1. -/
noncomputable def margeffFormula {n p : ℕ} (mode : MEMode) (pdf : ℝ → ℝ)
    (X : Matrix (Fin n) (Fin (p + 1)) ℝ) (β : Fin (p + 1) → ℝ) :
    Fin p → ℝ :=
  fun j =>
    (match mode with
     | MEMode.mean => pdf (∑ j2, meanRow X j2 * β j2)
     | MEMode.average => (∑ i, pdf (linIndex X β i)) / n) * β j.succ

/-- C3: in both evaluation modes the computed marginal-effects vector agrees
with the spec formula ME_j = f(xbar beta) · beta_j, and the intercept column
is excluded from the output. -/
theorem margeff_eq_formula {n p : ℕ} (mode : MEMode) (pdf : ℝ → ℝ)
    (X : Matrix (Fin n) (Fin (p + 1)) ℝ) (β : Fin (p + 1) → ℝ) :
    margeff mode pdf X β = margeffFormula mode pdf X β := by
  funext j
  cases mode with
  | mean =>
    simp [margeff, margeffAll, margeffFormula, Matrix.dotProduct]
  | average =>
    simp only [margeff, margeffAll, margeffFormula]
    rw [← Finset.sum_mul, mul_div_right_comm]

/-! ## Clamped link CDFs for the log-likelihood -/

/-- Modelled from the spec: the log-likelihood evaluation inside the
external statistics library is absent from the source; the spec requires
the link CDF value to be clamped to [ε, 1-ε] before logarithms. -/
noncomputable def clampUnit (ε x : ℝ) : ℝ := max ε (min (1 - ε) x)

lemma clampUnit_mem (ε x : ℝ) (h1 : ε ≤ 1 - ε) :
    ε ≤ clampUnit ε x ∧ clampUnit ε x ≤ 1 - ε :=
  ⟨le_max_left _ _, max_le h1 (min_le_left _ _)⟩

/-- C7: both link CDFs (normal and logistic), clamped to [ε, 1-ε] with
0 < ε ≤ 1-ε, stay inside [ε, 1-ε] for every z; in particular the clamped
value and its complement are strictly positive, so no log-likelihood term
takes the logarithm of zero. -/
theorem clamped_cdf_bounds (ε z : ℝ) (h0 : 0 < ε) (h1 : ε ≤ 1 - ε) :
    (ε ≤ clampUnit ε (normalCDF z) ∧ clampUnit ε (normalCDF z) ≤ 1 - ε ∧
      0 < clampUnit ε (normalCDF z) ∧ 0 < 1 - clampUnit ε (normalCDF z)) ∧
    (ε ≤ clampUnit ε (logisticCDF z) ∧ clampUnit ε (logisticCDF z) ≤ 1 - ε ∧
      0 < clampUnit ε (logisticCDF z) ∧ 0 < 1 - clampUnit ε (logisticCDF z)) := by
  obtain ⟨ha1, ha2⟩ := clampUnit_mem ε (normalCDF z) h1
  obtain ⟨hb1, hb2⟩ := clampUnit_mem ε (logisticCDF z) h1
  exact ⟨⟨ha1, ha2, lt_of_lt_of_le h0 ha1, by linarith⟩,
    ⟨hb1, hb2, lt_of_lt_of_le h0 hb1, by linarith⟩⟩

/-- Witness for C7 at ε = 1/4, z = 0. -/
theorem clamped_cdf_bounds_witness :
    (0 : ℝ) < 1 / 4 ∧ (1 : ℝ) / 4 ≤ 1 - 1 / 4 ∧
    (1 / 4 ≤ clampUnit (1 / 4) (normalCDF 0) ∧
      clampUnit (1 / 4) (normalCDF 0) ≤ 1 - 1 / 4 ∧
      0 < clampUnit (1 / 4) (normalCDF 0) ∧
      0 < 1 - clampUnit (1 / 4) (normalCDF 0)) ∧
    (1 / 4 ≤ clampUnit (1 / 4) (logisticCDF 0) ∧
      clampUnit (1 / 4) (logisticCDF 0) ≤ 1 - 1 / 4 ∧
      0 < clampUnit (1 / 4) (logisticCDF 0) ∧
      0 < 1 - clampUnit (1 / 4) (logisticCDF 0)) :=
  ⟨by norm_num, by norm_num,
    (clamped_cdf_bounds (1 / 4) 0 (by norm_num) (by norm_num)).1,
    (clamped_cdf_bounds (1 / 4) 0 (by norm_num) (by norm_num)).2⟩

end Econometrics
